import Mathlib

/-!
# Verification of the semcor indexing subsystem

A shallow embedding of the index-construction code of the semcor
repository (`src/code/semcor.py`, `src/code/index.py`,
`src/code/objects.py`, `src/code/utils.py`) together with proofs of the
spec's testable properties.

Python dictionaries are modelled as association lists that record
insertion order (Python 3 dicts preserve insertion order); the dict
operations used by the code (`setdefault`, item assignment, lookup,
iteration) are modelled faithfully below.  A raised exception (IndexError
on a short list) is modelled with `Option`, `none` meaning the operation
raised.
-/

set_option linter.unusedSectionVars false

namespace Semcor

/-- A Python dict, as an insertion-ordered association list.  The code only
ever creates dicts through `dsetdefault`/`dinsert`, which keep keys
distinct, mirroring the Python dict invariant. -/
abbrev Dict (α β : Type) : Type := List (α × β)

/-- `d[k]`, returning `none` on a missing key (`KeyError`). -/
def dlookup {α β : Type} [DecidableEq α] (d : Dict α β) (k : α) : Option β :=
  match d with
  | [] => none
  | (k', v) :: rest => if k' = k then some v else dlookup rest k

/-- `list(d.keys())`, in insertion order. -/
def dkeys {α β : Type} (d : Dict α β) : List α :=
  d.map Prod.fst

/-- `d.setdefault(k, v)`: if `k` is absent, append `(k, v)`; an existing
binding is untouched. -/
def dsetdefault {α β : Type} [DecidableEq α] (d : Dict α β) (k : α) (v : β) : Dict α β :=
  match d with
  | [] => [(k, v)]
  | (k', v') :: rest => if k' = k then (k', v') :: rest else (k', v') :: dsetdefault rest k v

/-- `d[k] = v`: replace the value at an existing key in place, otherwise
append the new binding. -/
def dinsert {α β : Type} [DecidableEq α] (d : Dict α β) (k : α) (v : β) : Dict α β :=
  match d with
  | [] => [(k, v)]
  | (k', v') :: rest => if k' = k then (k', v) :: rest else (k', v') :: dinsert rest k v

/-- Lookup through a two-level dict: `d[k][f]`, `none` when either level
misses. -/
def dlookup2 {α β γ : Type} [DecidableEq α] [DecidableEq β]
    (d : Dict α (Dict β γ)) (k : α) (f : β) : Option γ :=
  match dlookup d k with
  | none => none
  | some m => dlookup m f

section DictLemmas

variable {α β γ : Type} [DecidableEq α]

lemma dlookup_dinsert_self (d : Dict α β) (k : α) (v : β) :
    dlookup (dinsert d k v) k = some v := by
  induction d with
  | nil => simp [dinsert, dlookup]
  | cons p rest ih =>
      obtain ⟨k', v'⟩ := p
      by_cases h : k' = k
      · subst h; simp [dinsert, dlookup]
      · simp [dinsert, dlookup, h, ih]

lemma dlookup_dinsert_ne (d : Dict α β) {k k' : α} (v : β) (h : k ≠ k') :
    dlookup (dinsert d k v) k' = dlookup d k' := by
  induction d with
  | nil => simp [dinsert, dlookup, h]
  | cons p rest ih =>
      obtain ⟨k'', v''⟩ := p
      by_cases h2 : k'' = k
      · subst h2; simp [dinsert, dlookup, h]
      · by_cases h3 : k'' = k'
        · subst h3; simp [dinsert, dlookup, h2]
        · simp [dinsert, dlookup, h2, h3, ih]

lemma dlookup_dsetdefault_self (d : Dict α β) (k : α) (v : β) :
    dlookup (dsetdefault d k v) k = some ((dlookup d k).getD v) := by
  induction d with
  | nil => simp [dsetdefault, dlookup]
  | cons p rest ih =>
      obtain ⟨k', v'⟩ := p
      by_cases h : k' = k
      · subst h; simp [dsetdefault, dlookup]
      · simp [dsetdefault, dlookup, h, ih]

lemma dlookup_dsetdefault_ne (d : Dict α β) {k k' : α} (v : β) (h : k ≠ k') :
    dlookup (dsetdefault d k v) k' = dlookup d k' := by
  induction d with
  | nil => simp [dsetdefault, dlookup, h]
  | cons p rest ih =>
      obtain ⟨k'', v''⟩ := p
      by_cases h2 : k'' = k
      · subst h2; simp [dsetdefault, dlookup, h]
      · by_cases h3 : k'' = k'
        · subst h3; simp [dsetdefault, dlookup, h2]
        · simp [dsetdefault, dlookup, h2, h3, ih]

lemma dinsert_ne_nil (d : Dict α β) (k : α) (v : β) : dinsert d k v ≠ [] := by
  cases d with
  | nil => simp [dinsert]
  | cons p rest =>
      obtain ⟨k', v'⟩ := p
      by_cases h : k' = k <;> simp [dinsert, h]

lemma dlookup_append (d e : Dict α β) (k : α) :
    dlookup (d ++ e) k =
      match dlookup d k with
      | some v => some v
      | none => dlookup e k := by
  induction d with
  | nil => simp [dlookup]
  | cons p rest ih =>
      obtain ⟨k', v'⟩ := p
      by_cases h : k' = k
      · subst h; simp [dlookup]
      · simp [dlookup, h, ih]

lemma mem_dkeys_iff_dlookup (d : Dict α β) (k : α) :
    k ∈ dkeys d ↔ dlookup d k ≠ none := by
  induction d with
  | nil => simp [dkeys, dlookup]
  | cons p rest ih =>
      obtain ⟨k', v'⟩ := p
      by_cases h : k' = k
      · subst h; simp [dkeys, dlookup]
      · simp [dkeys, dlookup, h, ← ih]
        intro hc
        exact absurd hc.symm h

lemma dlookup_mem {d : Dict α β} {k : α} {v : β} (h : dlookup d k = some v) :
    (k, v) ∈ d := by
  induction d with
  | nil => simp [dlookup] at h
  | cons p rest ih =>
      obtain ⟨k', v'⟩ := p
      by_cases h2 : k' = k
      · subst h2
        simp [dlookup] at h
        subst h
        exact List.mem_cons_self _ _
      · rw [dlookup, if_neg h2] at h
        exact List.mem_cons_of_mem _ (ih h)

lemma dlookup_eq_of_mem_nodup {d : Dict α β} {k : α} {v : β}
    (hnd : (dkeys d).Nodup) (h : (k, v) ∈ d) : dlookup d k = some v := by
  induction d with
  | nil => simp at h
  | cons p rest ih =>
      obtain ⟨k', v'⟩ := p
      rw [dkeys, List.map_cons, List.nodup_cons] at hnd
      rcases List.mem_cons.mp h with heq | hmem
      · rw [Prod.mk.injEq] at heq
        obtain ⟨h1, h2⟩ := heq
        subst h1; subst h2
        simp [dlookup]
      · have hk : k' ≠ k := by
          intro hc
          subst hc
          exact hnd.1 (List.mem_map.mpr ⟨(k', v), hmem, rfl⟩)
        rw [dlookup, if_neg hk]
        exact ih hnd.2 hmem

lemma dinsert_mem_of_mem (d : Dict α β) (k : α) (v : β) {q : α × β}
    (hq : q ∈ dinsert d k v) : q ∈ (k, v) :: d := by
  induction d with
  | nil => simpa [dinsert] using hq
  | cons p rest ih =>
      obtain ⟨k', v'⟩ := p
      by_cases h : k' = k
      · subst h
        rw [dinsert, if_pos rfl] at hq
        rcases List.mem_cons.mp hq with h1 | h1
        · exact h1 ▸ List.mem_cons_self _ _
        · exact List.mem_cons_of_mem _ (List.mem_cons_of_mem _ h1)
      · rw [dinsert, if_neg h] at hq
        rcases List.mem_cons.mp hq with h1 | h1
        · exact h1 ▸ List.mem_cons_of_mem _ (List.mem_cons_self _ _)
        · rcases List.mem_cons.mp (ih h1) with h2 | h2
          · exact h2 ▸ List.mem_cons_self _ _
          · exact List.mem_cons_of_mem _ (List.mem_cons_of_mem _ h2)

lemma setdefault_mem_of_mem (d : Dict α β) (k : α) (v : β) {q : α × β}
    (hq : q ∈ dsetdefault d k v) : q ∈ d ∨ q = (k, v) := by
  induction d with
  | nil =>
      rw [dsetdefault] at hq
      exact Or.inr (List.mem_singleton.mp hq)
  | cons p rest ih =>
      obtain ⟨k', v'⟩ := p
      by_cases h : k' = k
      · subst h
        rw [dsetdefault, if_pos rfl] at hq
        exact Or.inl hq
      · rw [dsetdefault, if_neg h] at hq
        rcases List.mem_cons.mp hq with h1 | h1
        · exact Or.inl (h1 ▸ List.mem_cons_self _ _)
        · rcases ih h1 with h2 | h2
          · exact Or.inl (List.mem_cons_of_mem _ h2)
          · exact Or.inr h2

lemma dkeys_dinsert_nodup {d : Dict α β} (k : α) (v : β) (hnd : (dkeys d).Nodup) :
    (dkeys (dinsert d k v)).Nodup := by
  induction d with
  | nil => simp [dinsert, dkeys]
  | cons p rest ih =>
      obtain ⟨k', v'⟩ := p
      rw [dkeys, List.map_cons, List.nodup_cons] at hnd
      by_cases h : k' = k
      · subst h
        rw [dinsert, if_pos rfl, dkeys, List.map_cons, List.nodup_cons]
        exact hnd
      · rw [dinsert, if_neg h, dkeys, List.map_cons, List.nodup_cons]
        refine ⟨?_, ih hnd.2⟩
        intro hc
        rcases List.mem_map.mp hc with ⟨q, hq, hqe⟩
        rcases List.mem_cons.mp ((dinsert_mem_of_mem rest k v) hq) with h1 | h1
        · exact h (hqe.symm.trans (congrArg Prod.fst h1))
        · exact hnd.1 (hqe ▸ List.mem_map.mpr ⟨q, h1, rfl⟩)

lemma dkeys_dsetdefault_nodup {d : Dict α β} (k : α) (v : β) (hnd : (dkeys d).Nodup) :
    (dkeys (dsetdefault d k v)).Nodup := by
  induction d with
  | nil => simp [dsetdefault, dkeys]
  | cons p rest ih =>
      obtain ⟨k', v'⟩ := p
      rw [dkeys, List.map_cons, List.nodup_cons] at hnd
      by_cases h : k' = k
      · subst h
        rw [dsetdefault, if_pos rfl, dkeys, List.map_cons, List.nodup_cons]
        exact hnd
      · rw [dsetdefault, if_neg h, dkeys, List.map_cons, List.nodup_cons]
        refine ⟨?_, ih hnd.2⟩
        intro hc
        rcases List.mem_map.mp hc with ⟨q, hq, hqe⟩
        rcases setdefault_mem_of_mem rest k v hq with h1 | h1
        · exact hnd.1 (hqe ▸ List.mem_map.mpr ⟨q, h1, rfl⟩)
        · exact h (hqe.symm.trans (congrArg Prod.fst h1))

end DictLemmas

/-- `utils.Synset`: the per-sense record built from six input lines (the
constructor stores lines 1-5; line 0, the sense id, is kept by the caller
as the dict key). -/
structure Synset where
  ssid : String
  cat : String
  btypes : String
  description : String
  gloss : String
deriving DecidableEq, Repr

/-- `Synset(lines)` on the slice `lines[i:i+6]`: reads `lines[1]` ..
`lines[5]`, so any slice shorter than six lines raises IndexError,
modelled as `none`. -/
def mkSynset (lines : List String) : Option Synset :=
  match lines with
  | _ :: l1 :: l2 :: l3 :: l4 :: l5 :: _ =>
      some ⟨l1.trim, l2.trim, l3.trim, l4.trim, l5.trim⟩
  | _ => none

/-- The sense-record loop of `Semcor._load_mappings` for one lemma block:
`for i in range(0, len(lines), 6)` takes `lines[i]` as the sense key and
builds `Synset(lines[i:i+6])`; a trailing group shorter than six lines
makes the `Synset` constructor raise, aborting the load (`none`). -/
def load_block_loop (lines : List String) (acc : Dict String Synset) :
    Option (Dict String Synset) :=
  match lines with
  | [] => some acc
  | l0 :: rest =>
      match mkSynset (l0 :: rest.take 5) with
      | none => none
      | some ss => load_block_loop (rest.drop 5) (dinsert acc l0.trim ss)
termination_by lines.length
decreasing_by simp [List.length_drop]; omega

/-- One per-lemma block of `Semcor._load_mappings` (semcor.py:204-208):
`lines` are the sense lines remaining after `lines.pop(0)` removed the
lemma line. -/
def load_block (lines : List String) : Option (Dict String Synset) :=
  load_block_loop lines []

lemma mkSynset_chunk (l0 : String) (rest : List String) :
    mkSynset (l0 :: rest.take 5) = none ↔ rest.length < 5 := by
  match rest with
  | [] => simp [mkSynset]
  | [a] => simp [mkSynset]
  | [a, b] => simp [mkSynset]
  | [a, b, c] => simp [mkSynset]
  | [a, b, c, d] => simp [mkSynset]
  | a :: b :: c :: d :: e :: tail => simp [mkSynset]

lemma load_block_loop_none_iff_aux (n : Nat) :
    ∀ (lines : List String) (acc : Dict String Synset), lines.length ≤ n →
      (load_block_loop lines acc = none ↔ lines.length % 6 ≠ 0) := by
  induction n with
  | zero =>
      intro lines acc hlen
      have h0 : lines = [] := List.length_eq_zero.mp (Nat.le_zero.mp hlen)
      subst h0
      simp [load_block_loop]
  | succ n ih =>
      intro lines acc hlen
      match lines with
      | [] => simp [load_block_loop]
      | l0 :: rest =>
          rw [load_block_loop]
          by_cases hshort : rest.length < 5
          · have hm : mkSynset (l0 :: rest.take 5) = none := (mkSynset_chunk l0 rest).mpr hshort
            rw [hm]
            simp only [List.length_cons]
            constructor
            · intro _; omega
            · intro _; trivial
          · obtain ⟨ss, hss⟩ : ∃ ss, mkSynset (l0 :: rest.take 5) = some ss := by
              cases hm : mkSynset (l0 :: rest.take 5) with
              | none => exact absurd ((mkSynset_chunk l0 rest).mp hm) hshort
              | some ss => exact ⟨ss, rfl⟩
            rw [hss]
            have hlen' : (rest.drop 5).length ≤ n := by
              simp only [List.length_drop]
              simp only [List.length_cons] at hlen
              omega
            rw [ih (rest.drop 5) (dinsert acc l0.trim ss) hlen']
            simp only [List.length_drop, List.length_cons]
            omega

lemma load_block_none_iff (lines : List String) :
    load_block lines = none ↔ lines.length % 6 ≠ 0 :=
  load_block_loop_none_iff_aux lines.length lines [] le_rfl

/-- C1: loading the semantic-type mapping aborts with a structural error
(the `Synset` constructor raises on a short slice, modelled as `none`)
exactly when a per-lemma block's count of sense lines after the lemma line
is not a multiple of six; in particular a malformed block is never
silently truncated to a partial result. -/
theorem load_block_fails_iff_not_multiple_of_six (lines : List String) :
    (load_block lines = none ↔ lines.length % 6 ≠ 0) ∧
    (lines.length % 6 ≠ 0 → ∀ d : Dict String Synset, load_block lines ≠ some d) := by
  refine ⟨load_block_none_iff lines, ?_⟩
  intro hmod d hsome
  rw [(load_block_none_iff lines).mpr hmod] at hsome
  exact Option.noConfusion hsome

/-- Witness for C1 at a concrete malformed block (7 sense lines) and a
concrete well-formed block (6 sense lines). -/
theorem load_block_fails_witness :
    (["s", "i", "n", "b", "d", "g", "x"].length % 6 ≠ 0) ∧
    (∀ d : Dict String Synset, load_block ["s", "i", "n", "b", "d", "g", "x"] ≠ some d) :=
  ⟨by decide,
   (load_block_fails_iff_not_multiple_of_six ["s", "i", "n", "b", "d", "g", "x"]).2 (by decide)⟩

/-- `objects.WordForm`, restricted to the fields the indexing code reads.
`lemma_` is the word form's `lemma` attribute (spelled with a trailing
underscore because `lemma` is a Lean keyword); `sent_fname` is
`wf.sent.fname`, the base name of the document the word form occurs in;
`synset` is the `Synset` attached by `Semcor._add_synsets_to_wordforms`,
`none` when no mapping entry exists.  An `id_` field (`position` in the
sentence together with the sentence id would do in the real corpus)
distinguishes word-form instances. -/
structure WordForm where
  id_ : Nat
  lemma_ : String
  sent_fname : String
  synset : Option Synset
deriving DecidableEq, Repr

/-- `wf.synset.btypes`.  Every call site below reads this only from word
forms that have a synset (in Python a `None` synset would raise
AttributeError); the `none` branch returns a default that is unreachable
under that invariant, which the theorems assume explicitly where it
matters. -/
def wfBtypes (wf : WordForm) : String :=
  match wf.synset with
  | some ss => ss.btypes
  | none => ""

/-- `index.invert_index`: a new index whose top-level keys switch place
with embedded keys.  For each outer key (in insertion order) and each
inner key, `result.setdefault(lemma, {})` then
`result[lemma][fname] = idx[fname][lemma]`; the leaf values are passed
through untouched. -/
def invert_index {α β γ : Type} [DecidableEq α] [DecidableEq β]
    (idx : Dict α (Dict β γ)) : Dict β (Dict α γ) :=
  idx.foldl
    (fun result p =>
      p.2.foldl
        (fun result q =>
          let result := dsetdefault result q.1 []
          dinsert result q.1 (dinsert ((dlookup result q.1).getD []) p.1 q.2))
        result)
    []

section InvertLemmas

variable {α β γ : Type} [DecidableEq α] [DecidableEq β]

/-- The body of the inner loop of `invert_index`:
`result.setdefault(lemma, {}); result[lemma][fname] = idx[fname][lemma]`. -/
def invert_inner_step (fname : α) (result : Dict β (Dict α γ)) (q : β × γ) :
    Dict β (Dict α γ) :=
  let result := dsetdefault result q.1 []
  dinsert result q.1 (dinsert ((dlookup result q.1).getD []) fname q.2)

lemma invert_index_eq_foldl (idx : Dict α (Dict β γ)) :
    invert_index idx =
      idx.foldl (fun result p => p.2.foldl (invert_inner_step p.1) result) [] :=
  rfl

lemma invert_inner_step_lookup (fname : α) (result : Dict β (Dict α γ)) (q : β × γ)
    (b : β) :
    dlookup (invert_inner_step fname result q) b =
      if q.1 = b then some (dinsert ((dlookup result q.1).getD []) fname q.2)
      else dlookup result b := by
  rw [invert_inner_step]
  by_cases h : q.1 = b
  · subst h
    rw [if_pos rfl, dlookup_dinsert_self, dlookup_dsetdefault_self]
    rfl
  · rw [if_neg h, dlookup_dinsert_ne _ _ h, dlookup_dsetdefault_ne _ _ h]

lemma dlookup2_eq_bind (d : Dict α (Dict β γ)) (k : α) (f : β) :
    dlookup2 d k f = (dlookup d k).bind (fun m => dlookup m f) := by
  rw [dlookup2]
  cases dlookup d k <;> rfl

lemma dlookup_singleton (q : β × γ) (k : β) :
    dlookup [q] k = if q.1 = k then some q.2 else none := rfl

lemma invert_inner_step_lookup2 (fname : α) (result : Dict β (Dict α γ)) (q : β × γ)
    (b : β) (a : α) :
    dlookup2 (invert_inner_step fname result q) b a =
      if q.1 = b ∧ a = fname then some q.2 else dlookup2 result b a := by
  rw [dlookup2_eq_bind, invert_inner_step_lookup]
  by_cases hb : q.1 = b
  · rw [if_pos hb, Option.some_bind]
    by_cases ha : a = fname
    · rw [if_pos ⟨hb, ha⟩, ha, dlookup_dinsert_self]
    · rw [if_neg (fun hc => ha hc.2), dlookup_dinsert_ne _ _ (fun hc => ha hc.symm),
        dlookup2_eq_bind, ← hb]
      cases hr : dlookup result q.1 <;> rfl
  · rw [if_neg hb, if_neg (fun hc => hb hc.1), dlookup2_eq_bind]

/-- Effect of the whole inner loop for one outer key `fname`: the `fname`
column of the accumulator is extended from `done` to `done ++ inner`, and
every other column is untouched. -/
lemma invert_inner_loop_lookup2 (fname : α) :
    ∀ (inner done : Dict β γ) (r : Dict β (Dict α γ)),
      (dkeys (done ++ inner)).Nodup →
      (∀ b, dlookup2 r b fname = dlookup done b) →
      ∀ b a, dlookup2 (inner.foldl (invert_inner_step fname) r) b a =
        if a = fname then dlookup (done ++ inner) b else dlookup2 r b a := by
  intro inner
  induction inner with
  | nil =>
      intro done r _ hcol b a
      rw [List.foldl_nil, List.append_nil]
      by_cases h : a = fname
      · subst h; rw [if_pos rfl, hcol b]
      · rw [if_neg h]
  | cons q rest ih =>
      intro done r hnd hcol b a
      rw [List.foldl_cons]
      have hnd' : (dkeys ((done ++ [q]) ++ rest)).Nodup := by
        rwa [List.append_assoc, List.singleton_append]
      have hndq : q.1 ∉ dkeys done := by
        rw [dkeys, List.map_append, List.map_cons] at hnd
        have hdisj := (List.nodup_append.mp hnd).2.2
        intro hc
        exact hdisj hc (List.mem_cons_self _ _)
      have hcol' : ∀ b, dlookup2 (invert_inner_step fname r q) b fname =
          dlookup (done ++ [q]) b := by
        intro b
        rw [invert_inner_step_lookup2, dlookup_append]
        by_cases hb : q.1 = b
        · rw [if_pos ⟨hb, rfl⟩]
          have hdone : dlookup done b = none := by
            cases hl : dlookup done b with
            | none => rfl
            | some v =>
                exact absurd ((mem_dkeys_iff_dlookup done b).mpr
                  (by rw [hl]; exact Option.noConfusion)) (hb ▸ hndq)
          rw [hdone]
          show some q.2 = dlookup [q] b
          rw [dlookup_singleton, if_pos hb]
        · rw [if_neg (fun hc => hb hc.1), hcol b]
          cases hl : dlookup done b with
          | none =>
              show none = dlookup [q] b
              rw [dlookup_singleton, if_neg hb]
          | some v => rfl
      rw [ih (done ++ [q]) (invert_inner_step fname r q) hnd' hcol' b a,
        List.append_assoc, List.singleton_append]
      by_cases h : a = fname
      · rw [if_pos h, if_pos h]
      · rw [if_neg h, if_neg h, invert_inner_step_lookup2,
          if_neg (fun hc => h hc.2)]

/-- Effect of the outer loop of `invert_index`: looking up `(b, a)` in the
result reads `idx[a][b]` for the outer keys `a` still to be processed, and
falls back to the accumulator otherwise. -/
lemma invert_outer_loop_lookup2 :
    ∀ (remaining : Dict α (Dict β γ)) (r : Dict β (Dict α γ)),
      (dkeys remaining).Nodup →
      (∀ p ∈ remaining, (dkeys p.2).Nodup) →
      (∀ a, a ∈ dkeys remaining → ∀ b, dlookup2 r b a = none) →
      ∀ b a,
        dlookup2 (remaining.foldl (fun result p => p.2.foldl (invert_inner_step p.1) result) r) b a =
          match dlookup remaining a with
          | some inner => dlookup inner b
          | none => dlookup2 r b a := by
  intro remaining
  induction remaining with
  | nil =>
      intro r _ _ _ b a
      rw [List.foldl_nil]
      rfl
  | cons p rest ih =>
      intro r hnd hinner hfresh b a
      obtain ⟨fname, inner⟩ := p
      rw [List.foldl_cons]
      rw [dkeys, List.map_cons, List.nodup_cons] at hnd
      have hstep : ∀ b a, dlookup2 (inner.foldl (invert_inner_step fname) r) b a =
          if a = fname then dlookup inner b else dlookup2 r b a := by
        intro b a
        have h0 : (dkeys (([] : Dict β γ) ++ inner)).Nodup := by
          rw [List.nil_append]
          exact hinner (fname, inner) (List.mem_cons_self _ _)
        have hcol : ∀ b, dlookup2 r b fname = dlookup ([] : Dict β γ) b := by
          intro b
          rw [hfresh fname (by rw [dkeys, List.map_cons]; exact List.mem_cons_self _ _) b]
          rfl
        rw [invert_inner_loop_lookup2 fname inner [] r h0 hcol b a, List.nil_append]
      have hfresh' : ∀ a, a ∈ dkeys rest → ∀ b,
          dlookup2 (inner.foldl (invert_inner_step fname) r) b a = none := by
        intro a ha b
        rw [hstep b a]
        have hne : a ≠ fname := by
          intro hc
          subst hc
          exact hnd.1 ha
        rw [if_neg hne]
        exact hfresh a (by rw [dkeys, List.map_cons]; exact List.mem_cons_of_mem _ ha) b
      rw [ih (inner.foldl (invert_inner_step fname) r) hnd.2
        (fun p hp => hinner p (List.mem_cons_of_mem _ hp)) hfresh' b a]
      by_cases ha : fname = a
      · subst ha
        have hrest : dlookup rest fname = none := by
          cases hl : dlookup rest fname with
          | none => rfl
          | some v => exact absurd ((mem_dkeys_iff_dlookup rest fname).mpr
              (by rw [hl]; exact Option.noConfusion)) hnd.1
        rw [hrest, dlookup, if_pos rfl, hstep b fname, if_pos rfl]
      · rw [dlookup, if_neg ha]
        cases hl : dlookup rest a with
        | none =>
            rw [hstep b a, if_neg (fun hc => ha hc.symm)]
        | some m => rfl

/-- Transposition: under the Python dict invariant (duplicate-free keys at
both levels), a single inversion swaps the two lookup levels and leaves
every leaf value untouched. -/
lemma invert_index_lookup2 (idx : Dict α (Dict β γ))
    (hnd : (dkeys idx).Nodup) (hinner : ∀ p ∈ idx, (dkeys p.2).Nodup)
    (b : β) (a : α) :
    dlookup2 (invert_index idx) b a = dlookup2 idx a b := by
  rw [invert_index_eq_foldl,
    invert_outer_loop_lookup2 idx [] hnd hinner (fun a _ b => rfl) b a,
    dlookup2_eq_bind idx a b]
  cases hl : dlookup idx a <;> rfl

lemma foldl_invariant {δ ε : Type} (P : δ → Prop) (f : δ → ε → δ)
    (hf : ∀ d e, P d → P (f d e)) :
    ∀ (l : List ε) (d : δ), P d → P (l.foldl f d) := by
  intro l
  induction l with
  | nil => intro d hd; exact hd
  | cons e rest ih =>
      intro d hd
      rw [List.foldl_cons]
      exact ih (f d e) (hf d e hd)

lemma invert_index_dkeys_nodup (idx : Dict α (Dict β γ)) :
    (dkeys (invert_index idx)).Nodup := by
  rw [invert_index_eq_foldl]
  refine foldl_invariant (fun r => (dkeys r).Nodup) _ ?_ idx [] List.nodup_nil
  intro r p hr
  refine foldl_invariant (fun r => (dkeys r).Nodup) _ ?_ p.2 r hr
  intro r q hr2
  rw [invert_inner_step]
  exact dkeys_dinsert_nodup _ _ (dkeys_dsetdefault_nodup _ _ hr2)

lemma invert_index_inner_nodup (idx : Dict α (Dict β γ)) :
    ∀ b m, dlookup (invert_index idx) b = some m → (dkeys m).Nodup := by
  rw [invert_index_eq_foldl]
  refine foldl_invariant
    (fun r => ∀ b m, dlookup r b = some m → (dkeys m).Nodup) _ ?_ idx []
    (fun b m hm => by rw [dlookup] at hm; exact Option.noConfusion hm)
  intro r p hr
  refine foldl_invariant
    (fun r => ∀ b m, dlookup r b = some m → (dkeys m).Nodup) _ ?_ p.2 r hr
  intro r q hr2 b m hm
  rw [invert_inner_step_lookup] at hm
  by_cases hb : q.1 = b
  · rw [if_pos hb] at hm
    obtain rfl : dinsert ((dlookup r q.1).getD []) p.1 q.2 = m := by
      exact Option.some.inj hm
    cases hl : dlookup r q.1 with
    | none => exact dkeys_dinsert_nodup _ _ List.nodup_nil
    | some m1 => exact dkeys_dinsert_nodup _ _ (hr2 q.1 m1 hl)
  · rw [if_neg hb] at hm
    exact hr2 b m hm

lemma invert_index_values_nonempty (idx : Dict α (Dict β γ)) :
    ∀ b m, dlookup (invert_index idx) b = some m → m ≠ [] := by
  rw [invert_index_eq_foldl]
  refine foldl_invariant
    (fun r => ∀ b m, dlookup r b = some m → m ≠ []) _ ?_ idx []
    (fun b m hm => by rw [dlookup] at hm; exact Option.noConfusion hm)
  intro r p hr
  refine foldl_invariant
    (fun r => ∀ b m, dlookup r b = some m → m ≠ []) _ ?_ p.2 r hr
  intro r q hr2 b m hm
  rw [invert_inner_step_lookup] at hm
  by_cases hb : q.1 = b
  · rw [if_pos hb] at hm
    obtain rfl : dinsert ((dlookup r q.1).getD []) p.1 q.2 = m := Option.some.inj hm
    exact dinsert_ne_nil _ _ _
  · rw [if_neg hb] at hm
    exact hr2 b m hm

lemma dlookup_head (q : β × γ) (rest : Dict β γ) :
    dlookup (q :: rest) q.1 = some q.2 := by
  obtain ⟨q1, q2⟩ := q
  simp [dlookup]

lemma mem_dkeys_iff_exists_lookup2 (r : Dict β (Dict α γ))
    (hne : ∀ b m, dlookup r b = some m → m ≠ []) (b : β) :
    b ∈ dkeys r ↔ ∃ a, dlookup2 r b a ≠ none := by
  constructor
  · intro hb
    rcases Option.ne_none_iff_exists'.mp ((mem_dkeys_iff_dlookup r b).mp hb) with ⟨m, hm⟩
    cases m with
    | nil => exact absurd rfl (hne b [] hm)
    | cons q rest =>
        refine ⟨q.1, ?_⟩
        rw [dlookup2_eq_bind, hm, Option.some_bind, dlookup_head]
        exact Option.noConfusion
  · rintro ⟨a, ha⟩
    rw [mem_dkeys_iff_dlookup]
    intro hc
    exact ha (by rw [dlookup2_eq_bind, hc]; rfl)

end InvertLemmas

/-- C2 counterexample: `invert_index` is not an involution on all two-level
indexes.  An outer key whose inner mapping is empty is dropped by a single
inversion (the inner loop never runs), so inverting twice loses the key:
for the index `{"a": {}}` the double inversion is the empty index. -/
theorem invert_index_not_involutive_counterexample :
    dlookup (invert_index (invert_index [("a", ([] : Dict String (List WordForm)))])) "a"
        = none ∧
    dlookup [("a", ([] : Dict String (List WordForm)))] "a" = some [] ∧
    invert_index (invert_index [("a", ([] : Dict String (List WordForm)))]) ≠
      [("a", ([] : Dict String (List WordForm)))] := by
  refine ⟨rfl, rfl, ?_⟩
  intro h
  exact List.noConfusion h

/-- C2 (amended): for every two-level index satisfying the Python dict
invariant (duplicate-free keys at both levels) in which every inner
mapping is non-empty, a single `invert_index` swaps the two key levels
without altering any leaf list or its order, and applying `invert_index`
twice reproduces the original index: the same outer keys and the same
value at every two-level lookup (hence the same inner keys and identical
leaf lists in identical order).  Without the non-emptiness condition an
outer key with an empty inner mapping disappears. -/
theorem invert_index_involution {α β γ : Type} [DecidableEq α] [DecidableEq β]
    (idx : Dict α (Dict β γ))
    (hnd : (dkeys idx).Nodup)
    (hinner : ∀ p ∈ idx, (dkeys p.2).Nodup)
    (hne : ∀ p ∈ idx, p.2 ≠ []) :
    (∀ b a, dlookup2 (invert_index idx) b a = dlookup2 idx a b) ∧
    (∀ a b, dlookup2 (invert_index (invert_index idx)) a b = dlookup2 idx a b) ∧
    (∀ a, a ∈ dkeys (invert_index (invert_index idx)) ↔ a ∈ dkeys idx) := by
  have h1 : ∀ b a, dlookup2 (invert_index idx) b a = dlookup2 idx a b :=
    fun b a => invert_index_lookup2 idx hnd hinner b a
  have hJnd := invert_index_dkeys_nodup idx
  have hJinner : ∀ p ∈ invert_index idx, (dkeys p.2).Nodup := by
    intro p hp
    exact invert_index_inner_nodup idx p.1 p.2 (dlookup_eq_of_mem_nodup hJnd hp)
  have h2 : ∀ a b, dlookup2 (invert_index (invert_index idx)) a b = dlookup2 idx a b := by
    intro a b
    exact (invert_index_lookup2 (invert_index idx) hJnd hJinner a b).trans (h1 b a)
  refine ⟨h1, h2, ?_⟩
  intro a
  have hJJne : ∀ b m, dlookup (invert_index (invert_index idx)) b = some m → m ≠ [] :=
    invert_index_values_nonempty _
  have hidxne : ∀ a m, dlookup idx a = some m → m ≠ [] :=
    fun a m hm => hne (a, m) (dlookup_mem hm)
  rw [mem_dkeys_iff_exists_lookup2 _ hJJne a, mem_dkeys_iff_exists_lookup2 idx hidxne a]
  apply exists_congr
  intro b
  rw [h2 a b]

/-- A small sample index used to instantiate the inversion theorem. -/
def sampleIdx : Dict String (Dict String (List WordForm)) :=
  [("walk", [("br-a01", [⟨1, "walk", "br-a01", some ⟨"s1", "noun", "act", "d", "g"⟩⟩])]),
   ("bank", [("br-a01", [⟨2, "bank", "br-a01", some ⟨"s2", "noun", "loc", "d", "g"⟩⟩]),
             ("br-a02", [⟨3, "bank", "br-a02", some ⟨"s3", "noun", "ins", "d", "g"⟩⟩])])]

/-- Witness for the amended C2 at the concrete `sampleIdx`. -/
theorem invert_index_involution_witness :
    ((dkeys sampleIdx).Nodup ∧ (∀ p ∈ sampleIdx, (dkeys p.2).Nodup) ∧
      (∀ p ∈ sampleIdx, p.2 ≠ [])) ∧
    ((∀ b a, dlookup2 (invert_index sampleIdx) b a = dlookup2 sampleIdx a b) ∧
     (∀ a b, dlookup2 (invert_index (invert_index sampleIdx)) a b = dlookup2 sampleIdx a b) ∧
     (∀ a, a ∈ dkeys (invert_index (invert_index sampleIdx)) ↔ a ∈ dkeys sampleIdx)) :=
  ⟨⟨by decide, by decide, by decide⟩,
   invert_index_involution sampleIdx (by decide) (by decide) (by decide)⟩

/-- The inner helper `filter_sub_index` of `index.filter_lemma_fname_index`:
restrict each file-name entry's list to the word forms that have a synset,
and keep the entry only when those word forms carry more than one distinct
basic type. -/
def filter_sub_index (idx : Dict String (List WordForm)) : Dict String (List WordForm) :=
  idx.foldl
    (fun filtered_idx p =>
      let wfs := p.2.filter (fun wf => wf.synset.isSome)
      if 1 < ((wfs.map wfBtypes).dedup).length then dinsert filtered_idx p.1 wfs
      else filtered_idx)
    []

/-- `index.filter_lemma_fname_index`: apply `filter_sub_index` to every
lemma's sub-index, then drop the lemmas whose filtered sub-index is empty
(the `if idx` truthiness test of the dict comprehension). -/
def filter_lemma_fname_index (idx : Dict String (Dict String (List WordForm))) :
    Dict String (Dict String (List WordForm)) :=
  let idx2 := idx.map (fun p => (p.1, filter_sub_index p.2))
  idx2.filter (fun p => !p.2.isEmpty)

section FilterLemmas

/-- The body of the loop of `filter_sub_index`, named for the proofs. -/
def filter_sub_step (filtered_idx : Dict String (List WordForm))
    (p : String × List WordForm) : Dict String (List WordForm) :=
  let wfs := p.2.filter (fun wf => wf.synset.isSome)
  if 1 < ((wfs.map wfBtypes).dedup).length then dinsert filtered_idx p.1 wfs
  else filtered_idx

lemma filter_sub_index_eq_foldl (idx : Dict String (List WordForm)) :
    filter_sub_index idx = idx.foldl filter_sub_step [] :=
  rfl

/-- The retention test of `filter_sub_index`: more than one distinct basic
type among the word forms that have a synset. -/
abbrev fsub_keep (wfs : List WordForm) : Prop :=
  1 < ((((wfs.filter (fun wf => wf.synset.isSome)).map wfBtypes)).dedup).length

/-- Number of distinct basic-type labels among the word forms that carry a
synset, phrased the way the spec states the retention predicate (from
`word.synset.basic_types`, ignoring word forms whose synset is none). -/
def distinct_basic_types (wfs : List WordForm) : Nat :=
  (((wfs.filterMap (fun wf => wf.synset)).map Synset.btypes).dedup).length

lemma map_wfBtypes_filter (wfs : List WordForm) :
    (wfs.filter (fun wf => wf.synset.isSome)).map wfBtypes =
      (wfs.filterMap (fun wf => wf.synset)).map Synset.btypes := by
  induction wfs with
  | nil => rfl
  | cons wf rest ih =>
      cases hs : wf.synset with
      | none => simp [List.filter_cons, List.filterMap_cons, hs, ih]
      | some s => simp [List.filter_cons, List.filterMap_cons, hs, ih, wfBtypes]

lemma fsub_keep_iff (wfs : List WordForm) :
    fsub_keep wfs ↔ 1 < distinct_basic_types wfs := by
  rw [fsub_keep, distinct_basic_types, map_wfBtypes_filter]

lemma filter_sub_loop_lookup :
    ∀ (remaining acc : Dict String (List WordForm)),
      (dkeys remaining).Nodup →
      (∀ k, k ∈ dkeys remaining → dlookup acc k = none) →
      ∀ f, dlookup (remaining.foldl filter_sub_step acc) f =
        match dlookup remaining f with
        | some wfs =>
            if fsub_keep wfs then some (wfs.filter (fun wf => wf.synset.isSome))
            else none
        | none => dlookup acc f := by
  intro remaining
  induction remaining with
  | nil =>
      intro acc _ _ f
      rfl
  | cons p rest ih =>
      intro acc hnd hfresh f
      obtain ⟨f0, wfs0⟩ := p
      rw [dkeys, List.map_cons, List.nodup_cons] at hnd
      rw [List.foldl_cons]
      have hstep : ∀ k, k ≠ f0 →
          dlookup (filter_sub_step acc (f0, wfs0)) k = dlookup acc k := by
        intro k hk
        simp only [filter_sub_step]
        by_cases hkeep : fsub_keep wfs0
        · rw [if_pos hkeep, dlookup_dinsert_ne _ _ (fun hc => hk hc.symm)]
        · rw [if_neg hkeep]
      have hfresh' : ∀ k, k ∈ dkeys rest →
          dlookup (filter_sub_step acc (f0, wfs0)) k = none := by
        intro k hk
        have hne : k ≠ f0 := fun hc => hnd.1 (hc ▸ hk)
        rw [hstep k hne]
        exact hfresh k (by rw [dkeys, List.map_cons]; exact List.mem_cons_of_mem _ hk)
      rw [ih (filter_sub_step acc (f0, wfs0)) hnd.2 hfresh' f]
      by_cases hf : f0 = f
      · subst hf
        have hrest : dlookup rest f0 = none := by
          cases hl : dlookup rest f0 with
          | none => rfl
          | some v => exact absurd ((mem_dkeys_iff_dlookup rest f0).mpr
              (by rw [hl]; exact Option.noConfusion)) hnd.1
        rw [hrest, dlookup, if_pos rfl]
        simp only [filter_sub_step]
        by_cases hkeep : fsub_keep wfs0
        · rw [if_pos hkeep, if_pos hkeep, dlookup_dinsert_self]
        · rw [if_neg hkeep, if_neg hkeep]
          exact hfresh f0 (by rw [dkeys, List.map_cons]; exact List.mem_cons_self _ _)
      · rw [dlookup, if_neg hf]
        cases hl : dlookup rest f with
        | none => exact hstep f (fun hc => hf hc.symm)
        | some wfs => rfl

lemma filter_sub_index_lookup (idx : Dict String (List WordForm))
    (hnd : (dkeys idx).Nodup) (f : String) :
    dlookup (filter_sub_index idx) f =
      match dlookup idx f with
      | some wfs =>
          if fsub_keep wfs then some (wfs.filter (fun wf => wf.synset.isSome))
          else none
      | none => none := by
  rw [filter_sub_index_eq_foldl,
    filter_sub_loop_lookup idx [] hnd (fun k _ => rfl) f]
  cases dlookup idx f <;> rfl

lemma foldl_invariant_mem {δ ε : Type} (P : δ → Prop) (f : δ → ε → δ) :
    ∀ (l : List ε), (∀ d e, e ∈ l → P d → P (f d e)) →
      ∀ (d : δ), P d → P (l.foldl f d) := by
  intro l
  induction l with
  | nil => intro _ d hd; exact hd
  | cons e rest ih =>
      intro hf d hd
      rw [List.foldl_cons]
      exact ih (fun d e' he' hd' => hf d e' (List.mem_cons_of_mem _ he') hd')
        (f d e) (hf d e (List.mem_cons_self _ _) hd)

lemma filter_sub_index_mem {idx : Dict String (List WordForm)}
    {p : String × List WordForm} (hp : p ∈ filter_sub_index idx) :
    ∃ wfs, (p.1, wfs) ∈ idx ∧ p.2 = wfs.filter (fun wf => wf.synset.isSome) ∧
      fsub_keep wfs := by
  rw [filter_sub_index_eq_foldl] at hp
  refine foldl_invariant_mem
    (fun acc => ∀ q ∈ acc, ∃ wfs, (q.1, wfs) ∈ idx ∧
      q.2 = wfs.filter (fun wf => wf.synset.isSome) ∧ fsub_keep wfs)
    filter_sub_step idx ?_ [] (fun q hq => absurd hq (List.not_mem_nil q)) p hp
  intro acc e he hacc q hq
  simp only [filter_sub_step] at hq
  by_cases hkeep : fsub_keep e.2
  · rw [if_pos hkeep] at hq
    rcases List.mem_cons.mp (dinsert_mem_of_mem _ _ _ hq) with h1 | h1
    · subst h1
      exact ⟨e.2, he, rfl, hkeep⟩
    · exact hacc q h1
  · rw [if_neg hkeep] at hq
    exact hacc q hq

lemma dinsert_eq_append_of_not_mem {α β : Type} [DecidableEq α]
    (d : Dict α β) (k : α) (v : β) :
    k ∉ dkeys d → dinsert d k v = d ++ [(k, v)] := by
  induction d with
  | nil => intro _; rfl
  | cons p rest ih =>
      intro hk
      obtain ⟨k', v'⟩ := p
      rw [dkeys, List.map_cons] at hk
      have h1 : k' ≠ k := fun hc => hk (hc ▸ List.mem_cons_self _ _)
      rw [dinsert, if_neg h1, List.cons_append,
        ih (fun hc => hk (List.mem_cons_of_mem _ hc))]

lemma filter_sub_index_keys_nodup (idx : Dict String (List WordForm)) :
    (dkeys (filter_sub_index idx)).Nodup := by
  rw [filter_sub_index_eq_foldl]
  refine foldl_invariant (fun acc => (dkeys acc).Nodup) filter_sub_step ?_ idx []
    List.nodup_nil
  intro acc e hacc
  simp only [filter_sub_step]
  by_cases hkeep : fsub_keep e.2
  · rw [if_pos hkeep]
    exact dkeys_dinsert_nodup _ _ hacc
  · rw [if_neg hkeep]
    exact hacc

lemma filter_sub_loop_self :
    ∀ (d acc : Dict String (List WordForm)),
      (dkeys d).Nodup →
      (∀ k, k ∈ dkeys d → k ∉ dkeys acc) →
      (∀ p ∈ d, p.2.filter (fun wf => wf.synset.isSome) = p.2 ∧ fsub_keep p.2) →
      d.foldl filter_sub_step acc = acc ++ d := by
  intro d
  induction d with
  | nil =>
      intro acc _ _ _
      rw [List.foldl_nil, List.append_nil]
  | cons p rest ih =>
      intro acc hnd hdisj hval
      rw [dkeys, List.map_cons, List.nodup_cons] at hnd
      obtain ⟨hfilter, hkeep⟩ := hval p (List.mem_cons_self _ _)
      have hstep : filter_sub_step acc p = acc ++ [p] := by
        simp only [filter_sub_step]
        rw [if_pos hkeep, hfilter, dinsert_eq_append_of_not_mem acc p.1 p.2
          (hdisj p.1 (by rw [dkeys, List.map_cons]; exact List.mem_cons_self _ _))]
      have hdisj' : ∀ k, k ∈ dkeys rest → k ∉ dkeys (acc ++ [p]) := by
        intro k hk
        rw [dkeys, List.map_append]
        intro hc
        rcases List.mem_append.mp hc with hc | hc
        · exact hdisj k (by rw [dkeys, List.map_cons]; exact List.mem_cons_of_mem _ hk) hc
        · rw [List.map_singleton, List.mem_singleton] at hc
          exact hnd.1 (hc ▸ hk)
      rw [List.foldl_cons, hstep,
        ih (acc ++ [p]) hnd.2 hdisj' (fun q hq => hval q (List.mem_cons_of_mem _ hq)),
        List.append_assoc, List.singleton_append]

lemma filter_sub_index_idem (d : Dict String (List WordForm)) :
    filter_sub_index (filter_sub_index d) = filter_sub_index d := by
  have hval : ∀ p ∈ filter_sub_index d,
      p.2.filter (fun wf => wf.synset.isSome) = p.2 ∧ fsub_keep p.2 := by
    intro p hp
    rcases filter_sub_index_mem hp with ⟨wfs, _, hv, hkeep⟩
    have hff : p.2.filter (fun wf => wf.synset.isSome) = p.2 := by
      rw [hv]
      apply List.filter_eq_self.mpr
      intro wf hwf
      exact (List.mem_filter.mp hwf).2
    refine ⟨hff, ?_⟩
    show 1 < ((((p.2.filter (fun wf => wf.synset.isSome)).map wfBtypes)).dedup).length
    rw [hff, hv]
    exact hkeep
  have h := filter_sub_loop_self (filter_sub_index d) []
    (filter_sub_index_keys_nodup d) (fun k _ => List.not_mem_nil k) hval
  rw [filter_sub_index_eq_foldl (filter_sub_index d), h, List.nil_append]

lemma dlookup_map_value {α β γ : Type} [DecidableEq α] (d : Dict α β) (g : β → γ)
    (k : α) :
    dlookup (d.map (fun p => (p.1, g p.2))) k = (dlookup d k).map g := by
  induction d with
  | nil => rfl
  | cons p rest ih =>
      obtain ⟨k', v'⟩ := p
      by_cases h : k' = k
      · subst h
        simp [dlookup]
      · simp [dlookup, h, ih]

lemma dkeys_map_value {α β γ : Type} (d : Dict α β) (g : β → γ) :
    dkeys (d.map (fun p => (p.1, g p.2))) = dkeys d := by
  rw [dkeys, dkeys, List.map_map]
  rfl

lemma dlookup_filter_none {α β : Type} [DecidableEq α] (d : Dict α β)
    (f : α × β → Bool) (k : α) (h : dlookup d k = none) :
    dlookup (d.filter f) k = none := by
  induction d with
  | nil => rfl
  | cons p rest ih =>
      obtain ⟨k', v'⟩ := p
      rw [dlookup] at h
      by_cases hk : k' = k
      · rw [if_pos hk] at h
        exact Option.noConfusion h
      · rw [if_neg hk] at h
        rw [List.filter_cons]
        by_cases hf : f (k', v') = true
        · rw [if_pos hf, dlookup, if_neg hk]
          exact ih h
        · rw [if_neg hf]
          exact ih h

lemma dlookup_filter_some {α β : Type} [DecidableEq α] (d : Dict α β) (f : β → Bool)
    {k : α} {v : β} (hnd : (dkeys d).Nodup) (h : dlookup d k = some v) :
    dlookup (d.filter (fun q => f q.2)) k = if f v then some v else none := by
  induction d with
  | nil => exact Option.noConfusion h
  | cons p rest ih =>
      obtain ⟨k', v'⟩ := p
      rw [dkeys, List.map_cons, List.nodup_cons] at hnd
      rw [dlookup] at h
      rw [List.filter_cons]
      by_cases hk : k' = k
      · rw [if_pos hk] at h
        have hv : v' = v := Option.some.inj h
        subst hv
        subst hk
        have hrest : dlookup rest k' = none := by
          cases hl : dlookup rest k' with
          | none => rfl
          | some w => exact absurd ((mem_dkeys_iff_dlookup rest k').mpr
              (by rw [hl]; exact Option.noConfusion)) hnd.1
        by_cases hf : f v' = true
        · rw [if_pos hf, if_pos hf, dlookup, if_pos rfl]
        · rw [if_neg hf, if_neg hf]
          exact dlookup_filter_none rest _ k' hrest
      · rw [if_neg hk] at h
        by_cases hf : f v' = true
        · rw [if_pos hf, dlookup, if_neg hk]
          exact ih hnd.2 h
        · rw [if_neg hf]
          exact ih hnd.2 h

lemma filter_lemma_fname_index_eq (idx : Dict String (Dict String (List WordForm))) :
    filter_lemma_fname_index idx =
      (idx.map (fun p => (p.1, filter_sub_index p.2))).filter (fun p => !p.2.isEmpty) :=
  rfl

lemma filter_lemma_fname_index_dlookup (idx : Dict String (Dict String (List WordForm)))
    (hnd : (dkeys idx).Nodup) (lem : String) :
    dlookup (filter_lemma_fname_index idx) lem =
      match dlookup idx lem with
      | some sub =>
          if !(filter_sub_index sub).isEmpty then some (filter_sub_index sub) else none
      | none => none := by
  rw [filter_lemma_fname_index_eq]
  cases hl : dlookup idx lem with
  | none =>
      apply dlookup_filter_none
      rw [dlookup_map_value, hl]
      rfl
  | some sub =>
      have hm : dlookup (idx.map (fun p => (p.1, filter_sub_index p.2))) lem =
          some (filter_sub_index sub) := by
        rw [dlookup_map_value, hl]
        rfl
      have hndm : (dkeys (idx.map (fun p => (p.1, filter_sub_index p.2)))).Nodup := by
        rw [dkeys_map_value]
        exact hnd
      exact dlookup_filter_some _ (fun s => !s.isEmpty) hndm hm

lemma filter_sub_index_lookup_some (idx : Dict String (List WordForm))
    (hnd : (dkeys idx).Nodup) {f : String} {wfs : List WordForm}
    (h : dlookup idx f = some wfs) :
    dlookup (filter_sub_index idx) f =
      if fsub_keep wfs then some (wfs.filter (fun wf => wf.synset.isSome))
      else none := by
  have hc := filter_sub_index_lookup idx hnd f
  rw [h] at hc
  exact hc

lemma filter_sub_index_lookup_none (idx : Dict String (List WordForm))
    (hnd : (dkeys idx).Nodup) {f : String} (h : dlookup idx f = none) :
    dlookup (filter_sub_index idx) f = none := by
  have hc := filter_sub_index_lookup idx hnd f
  rw [h] at hc
  exact hc

lemma filter_lemma_fname_index_dlookup_some
    (idx : Dict String (Dict String (List WordForm))) (hnd : (dkeys idx).Nodup)
    {lem : String} {sub : Dict String (List WordForm)}
    (h : dlookup idx lem = some sub) :
    dlookup (filter_lemma_fname_index idx) lem =
      if !(filter_sub_index sub).isEmpty then some (filter_sub_index sub)
      else none := by
  have hc := filter_lemma_fname_index_dlookup idx hnd lem
  rw [h] at hc
  exact hc

lemma filter_lemma_fname_index_dlookup_none
    (idx : Dict String (Dict String (List WordForm))) (hnd : (dkeys idx).Nodup)
    {lem : String} (h : dlookup idx lem = none) :
    dlookup (filter_lemma_fname_index idx) lem = none := by
  have hc := filter_lemma_fname_index_dlookup idx hnd lem
  rw [h] at hc
  exact hc

end FilterLemmas

/-- C7: the single-sense filter is idempotent: applying
`filter_lemma_fname_index` twice yields literally the same index (hence
the same keys and the same leaf lists) as applying it once. -/
theorem filter_lemma_fname_index_idempotent
    (idx : Dict String (Dict String (List WordForm))) :
    filter_lemma_fname_index (filter_lemma_fname_index idx) =
      filter_lemma_fname_index idx := by
  rw [filter_lemma_fname_index_eq (filter_lemma_fname_index idx)]
  have hmap : (filter_lemma_fname_index idx).map
      (fun p => (p.1, filter_sub_index p.2)) = filter_lemma_fname_index idx := by
    have hcongr : ∀ p ∈ filter_lemma_fname_index idx,
        (fun p : String × Dict String (List WordForm) =>
          (p.1, filter_sub_index p.2)) p = id p := by
      intro p hp
      rw [filter_lemma_fname_index_eq] at hp
      rcases List.mem_map.mp (List.mem_filter.mp hp).1 with ⟨q, hq, hqe⟩
      show (p.1, filter_sub_index p.2) = p
      rw [← hqe]
      show (q.1, filter_sub_index (filter_sub_index q.2)) = (q.1, filter_sub_index q.2)
      rw [filter_sub_index_idem]
    rw [List.map_congr_left hcongr, List.map_id]
  rw [hmap]
  apply List.filter_eq_self.mpr
  intro p hp
  rw [filter_lemma_fname_index_eq] at hp
  exact (List.mem_filter.mp hp).2

/-- C6: the single-sense filter retains a `(lemma, document)` entry iff the
set of distinct basic-type labels among that entry's word forms with a
synset has size strictly greater than one; dropped document keys disappear
from the lemma's sub-mapping, and a lemma whose sub-mapping becomes empty
disappears from the outer mapping (an outer key survives exactly when some
document key survives under it). -/
theorem single_sense_filter_spec (idx : Dict String (Dict String (List WordForm)))
    (hnd : (dkeys idx).Nodup)
    (hinner : ∀ p ∈ idx, (dkeys p.2).Nodup) :
    (∀ lem f, dlookup2 (filter_lemma_fname_index idx) lem f ≠ none ↔
        ∃ wfs, dlookup2 idx lem f = some wfs ∧ 1 < distinct_basic_types wfs) ∧
    (∀ lem, dlookup (filter_lemma_fname_index idx) lem ≠ none ↔
        ∃ f, dlookup2 (filter_lemma_fname_index idx) lem f ≠ none) := by
  constructor
  · intro lem f
    rw [dlookup2_eq_bind]
    cases hl : dlookup idx lem with
    | none =>
        rw [filter_lemma_fname_index_dlookup_none idx hnd hl]
        constructor
        · intro hc
          exact absurd rfl hc
        · rintro ⟨wfs, hw, _⟩
          rw [dlookup2_eq_bind, hl] at hw
          exact Option.noConfusion hw
    | some sub =>
        have hsubnd : (dkeys sub).Nodup := hinner (lem, sub) (dlookup_mem hl)
        rw [filter_lemma_fname_index_dlookup_some idx hnd hl]
        cases hfe : filter_sub_index sub with
        | nil =>
            rw [if_neg (by decide)]
            constructor
            · intro hc
              exact absurd rfl hc
            · rintro ⟨wfs, hw, hgt⟩
              rw [dlookup2_eq_bind, hl, Option.some_bind] at hw
              have hfl := filter_sub_index_lookup_some sub hsubnd hw
              rw [hfe, if_pos ((fsub_keep_iff wfs).mpr hgt)] at hfl
              exact Option.noConfusion hfl
        | cons q rest =>
            rw [if_pos (by simp), Option.some_bind, ← hfe]
            cases hsf : dlookup sub f with
            | none =>
                rw [filter_sub_index_lookup_none sub hsubnd hsf]
                constructor
                · intro hc
                  exact absurd rfl hc
                · rintro ⟨wfs, hw, _⟩
                  rw [dlookup2_eq_bind, hl, Option.some_bind, hsf] at hw
                  exact Option.noConfusion hw
            | some wfs =>
                rw [filter_sub_index_lookup_some sub hsubnd hsf]
                constructor
                · intro hne
                  refine ⟨wfs, ?_, ?_⟩
                  · rw [dlookup2_eq_bind, hl, Option.some_bind, hsf]
                  · by_cases hkeep : fsub_keep wfs
                    · exact (fsub_keep_iff wfs).mp hkeep
                    · rw [if_neg hkeep] at hne
                      exact absurd rfl hne
                · rintro ⟨wfs', hw, hgt⟩
                  rw [dlookup2_eq_bind, hl, Option.some_bind, hsf] at hw
                  obtain rfl : wfs = wfs' := Option.some.inj hw
                  rw [if_pos ((fsub_keep_iff wfs).mpr hgt)]
                  exact fun h => Option.noConfusion h
  · intro lem
    constructor
    · intro hne
      rcases Option.ne_none_iff_exists'.mp hne with ⟨sub', hsub'⟩
      cases hl : dlookup idx lem with
      | none =>
          rw [filter_lemma_fname_index_dlookup_none idx hnd hl] at hsub'
          exact Option.noConfusion hsub'
      | some sub =>
          rw [filter_lemma_fname_index_dlookup_some idx hnd hl] at hsub'
          cases hfe : filter_sub_index sub with
          | nil =>
              rw [hfe, if_neg (by decide)] at hsub'
              exact Option.noConfusion hsub'
          | cons q rest =>
              refine ⟨q.1, ?_⟩
              rw [dlookup2_eq_bind, filter_lemma_fname_index_dlookup_some idx hnd hl,
                hfe, if_pos (by simp), Option.some_bind, dlookup_head]
              exact fun h => Option.noConfusion h
    · rintro ⟨f, hf⟩
      intro hc
      rw [dlookup2_eq_bind, hc] at hf
      exact hf rfl

/-- C10: every word form in a retained leaf list of the single-sense
filter has a synset: word forms whose synset is none are removed from the
retained lists, which are therefore the synset-bearing sublists of the
corresponding input lists. -/
theorem filter_retained_lists (idx : Dict String (Dict String (List WordForm)))
    (hnd : (dkeys idx).Nodup)
    (hinner : ∀ p ∈ idx, (dkeys p.2).Nodup)
    (lem f : String) (wfs' : List WordForm)
    (h : dlookup2 (filter_lemma_fname_index idx) lem f = some wfs') :
    (∀ wf ∈ wfs', wf.synset.isSome) ∧
    ∃ wfs, dlookup2 idx lem f = some wfs ∧
      wfs' = wfs.filter (fun wf => wf.synset.isSome) ∧ List.Sublist wfs' wfs := by
  rw [dlookup2_eq_bind] at h
  cases hl : dlookup idx lem with
  | none =>
      rw [filter_lemma_fname_index_dlookup_none idx hnd hl] at h
      exact Option.noConfusion h
  | some sub =>
      have hsubnd : (dkeys sub).Nodup := hinner (lem, sub) (dlookup_mem hl)
      rw [filter_lemma_fname_index_dlookup_some idx hnd hl] at h
      cases hfe : filter_sub_index sub with
      | nil =>
          rw [hfe, if_neg (by decide)] at h
          exact Option.noConfusion h
      | cons q rest =>
          rw [hfe, if_pos (by simp), Option.some_bind, ← hfe] at h
          cases hsf : dlookup sub f with
          | none =>
              rw [filter_sub_index_lookup_none sub hsubnd hsf] at h
              exact Option.noConfusion h
          | some wfs =>
              rw [filter_sub_index_lookup_some sub hsubnd hsf] at h
              by_cases hkeep : fsub_keep wfs
              · rw [if_pos hkeep] at h
                have hw : wfs.filter (fun wf => wf.synset.isSome) = wfs' :=
                  Option.some.inj h
                subst hw
                refine ⟨?_, wfs, ?_, rfl, List.filter_sublist wfs⟩
                · intro wf hwf
                  exact (List.mem_filter.mp hwf).2
                · rw [dlookup2_eq_bind, hl, Option.some_bind, hsf]
              · rw [if_neg hkeep] at h
                exact Option.noConfusion h

/-- A sample two-lemma index: `walk` occurs in `br-a01` with two distinct
basic types plus one unresolved word form, in `br-a02` with one basic
type; `run` has only an unresolved word form. -/
def filterSample : Dict String (Dict String (List WordForm)) :=
  [("walk",
     [("br-a01",
        [⟨1, "walk", "br-a01", some ⟨"s1", "noun", "act", "d", "g"⟩⟩,
         ⟨2, "walk", "br-a01", some ⟨"s2", "noun", "event", "d", "g"⟩⟩,
         ⟨3, "walk", "br-a01", none⟩]),
      ("br-a02", [⟨4, "walk", "br-a02", some ⟨"s1", "noun", "act", "d", "g"⟩⟩])]),
   ("run", [("br-a01", [⟨5, "run", "br-a01", none⟩])])]

/-- Witness for C6 at the concrete `filterSample`. -/
theorem single_sense_filter_spec_witness :
    ((dkeys filterSample).Nodup ∧ (∀ p ∈ filterSample, (dkeys p.2).Nodup)) ∧
    (dlookup2 (filter_lemma_fname_index filterSample) "walk" "br-a01" ≠ none ↔
      ∃ wfs, dlookup2 filterSample "walk" "br-a01" = some wfs ∧
        1 < distinct_basic_types wfs) :=
  ⟨⟨by decide, by decide⟩,
   (single_sense_filter_spec filterSample (by decide) (by decide)).1 "walk" "br-a01"⟩

/-- Witness for C10 at the concrete `filterSample`: the retained
`("walk", "br-a01")` list is the two resolved word forms, a strict sublist
of the three-element input list. -/
theorem filter_retained_lists_witness :
    (dlookup2 (filter_lemma_fname_index filterSample) "walk" "br-a01" =
      some [⟨1, "walk", "br-a01", some ⟨"s1", "noun", "act", "d", "g"⟩⟩,
            ⟨2, "walk", "br-a01", some ⟨"s2", "noun", "event", "d", "g"⟩⟩]) ∧
    ((∀ wf ∈ ([⟨1, "walk", "br-a01", some ⟨"s1", "noun", "act", "d", "g"⟩⟩,
               ⟨2, "walk", "br-a01", some ⟨"s2", "noun", "event", "d", "g"⟩⟩] :
        List WordForm), wf.synset.isSome) ∧
      ∃ wfs, dlookup2 filterSample "walk" "br-a01" = some wfs ∧
        ([⟨1, "walk", "br-a01", some ⟨"s1", "noun", "act", "d", "g"⟩⟩,
          ⟨2, "walk", "br-a01", some ⟨"s2", "noun", "event", "d", "g"⟩⟩] :
            List WordForm) = wfs.filter (fun wf => wf.synset.isSome) ∧
        List.Sublist ([⟨1, "walk", "br-a01", some ⟨"s1", "noun", "act", "d", "g"⟩⟩,
          ⟨2, "walk", "br-a01", some ⟨"s2", "noun", "event", "d", "g"⟩⟩] :
            List WordForm) wfs) :=
  ⟨by decide,
   filter_retained_lists filterSample (by decide) (by decide) "walk" "br-a01" _ (by decide)⟩

/-- `index.pairs`: `sequence = sorted(list(set(sequence)))`, then the list
comprehension `[(sequence[i], sequence[j]) for i in indices for j in
indices if i < j]` over `indices = range(len(sequence))` (indices drawn
from `range` are always in bounds, so the `getD` default is never
used).  Python's `sorted` on strings is the lexicographic code-point
order, modelled by comparing the character lists (`insertionSort_congr`
below shows this relation is String's `≤`). -/
def pairs (sequence : List String) : List (String × String) :=
  let s := List.insertionSort (fun a b : String => a.data ≤ b.data) sequence.dedup
  let indices := List.range s.length
  indices.flatMap
    (fun i => ((indices.filter (fun j => decide (i < j))).map
      (fun j => (s.getD i "", s.getD j ""))))


/-- Recursive characterization of the index comprehension inside `pairs`:
each element is paired with every later element, in order. -/
def pairsAux : List String → List (String × String)
  | [] => []
  | x :: xs => xs.map (fun y => (x, y)) ++ pairsAux xs

lemma map_getD_range {α : Type} (l : List α) (d : α) :
    (List.range l.length).map (fun i => l.getD i d) = l := by
  induction l with
  | nil => rfl
  | cons x xs ih =>
      rw [List.length_cons, List.range_succ_eq_map, List.map_cons, List.map_map]
      simp only [List.getD_cons_zero, Function.comp_def, List.getD_cons_succ]
      rw [ih]

lemma pairsIdx_eq_pairsAux (s : List String) :
    (List.range s.length).flatMap
      (fun i => (((List.range s.length).filter (fun j => decide (i < j))).map
        (fun j => (s.getD i "", s.getD j "")))) = pairsAux s := by
  induction s with
  | nil => rfl
  | cons x xs ih =>
      rw [List.length_cons, List.range_succ_eq_map, List.flatMap_cons, pairsAux]
      congr 1
      · rw [List.filter_cons]
        simp only [decide_eq_true_eq, Nat.lt_irrefl, if_false]
        rw [List.filter_map]
        have htrue : (List.range xs.length).filter (fun j => decide (0 < Nat.succ j)) =
            List.range xs.length := by
          apply List.filter_eq_self.mpr
          intro a _
          simp
        simp only [Function.comp_def]
        rw [htrue, List.map_map]
        simp only [Function.comp_def, List.getD_cons_zero, List.getD_cons_succ]
        have : (List.range xs.length).map (fun j => ((x, xs.getD j "") : String × String)) =
            ((List.range xs.length).map (fun j => xs.getD j "")).map (fun y => (x, y)) := by
          rw [List.map_map]; rfl
        rw [this, map_getD_range]
      · rw [List.flatMap_map]
        rw [← ih]
        apply List.flatMap_congr
        intro i _
        rw [List.filter_cons]
        simp only [Function.comp_def, decide_eq_true_eq, Nat.not_lt_zero, if_false]
        rw [List.filter_map]
        simp only [Function.comp_def, Nat.succ_lt_succ_iff, List.map_map,
          List.getD_cons_succ]

lemma orderedInsert_congr {α : Type} (r r' : α → α → Prop)
    [DecidableRel r] [DecidableRel r'] (hrr : ∀ a b, r a b ↔ r' a b) (a : α) :
    ∀ l : List α, List.orderedInsert r a l = List.orderedInsert r' a l := by
  intro l
  induction l with
  | nil => rfl
  | cons b rest ih =>
      rw [List.orderedInsert, List.orderedInsert]
      by_cases h : r a b
      · rw [if_pos h, if_pos ((hrr a b).mp h)]
      · rw [if_neg h, if_neg (fun hc => h ((hrr a b).mpr hc)), ih]

lemma insertionSort_congr {α : Type} (r r' : α → α → Prop)
    [DecidableRel r] [DecidableRel r'] (hrr : ∀ a b, r a b ↔ r' a b) :
    ∀ l : List α, List.insertionSort r l = List.insertionSort r' l := by
  intro l
  induction l with
  | nil => rfl
  | cons a rest ih =>
      rw [List.insertionSort, List.insertionSort, ih, orderedInsert_congr r r' hrr]

lemma string_data_le_iff (a b : String) : a.data ≤ b.data ↔ a ≤ b :=
  String.le_iff_toList_le.symm

lemma pairs_eq_pairsAux (l : List String) :
    pairs l = pairsAux (List.insertionSort (· ≤ ·) l.dedup) := by
  rw [pairs,
    insertionSort_congr (fun a b : String => a.data ≤ b.data) (· ≤ ·)
      string_data_le_iff l.dedup]
  exact pairsIdx_eq_pairsAux _

lemma mem_pairsAux {p : String × String} {s : List String} (hp : p ∈ pairsAux s) :
    p.1 ∈ s ∧ p.2 ∈ s := by
  induction s with
  | nil => simp [pairsAux] at hp
  | cons x xs ih =>
      rw [pairsAux, List.mem_append] at hp
      rcases hp with hp | hp
      · rcases List.mem_map.mp hp with ⟨y, hy, rfl⟩
        exact ⟨List.mem_cons_self x xs, List.mem_cons_of_mem x hy⟩
      · rcases ih hp with ⟨h1, h2⟩
        exact ⟨List.mem_cons_of_mem x h1, List.mem_cons_of_mem x h2⟩

lemma mem_pairsAux_iff {s : List String} (hs : s.Sorted (· ≤ ·)) (hnd : s.Nodup)
    {a b : String} : (a, b) ∈ pairsAux s ↔ a ∈ s ∧ b ∈ s ∧ a < b := by
  induction s with
  | nil => simp [pairsAux]
  | cons x xs ih =>
      rw [List.sorted_cons] at hs
      rw [List.nodup_cons] at hnd
      rw [pairsAux, List.mem_append]
      constructor
      · intro hp
        rcases hp with hp | hp
        · rcases List.mem_map.mp hp with ⟨y, hy, heq⟩
          rw [Prod.mk.injEq] at heq
          obtain ⟨h1, h2⟩ := heq
          subst h1; subst h2
          refine ⟨List.mem_cons_self _ _, List.mem_cons_of_mem _ hy, ?_⟩
          exact lt_of_le_of_ne (hs.1 y hy) (fun h => hnd.1 (h ▸ hy))
        · rcases (ih hs.2 hnd.2).mp hp with ⟨h1, h2, h3⟩
          exact ⟨List.mem_cons_of_mem x h1, List.mem_cons_of_mem x h2, h3⟩
      · rintro ⟨ha, hb, hab⟩
        rcases List.mem_cons.mp ha with ha' | ha'
        · subst ha'
          rcases List.mem_cons.mp hb with hb' | hb'
          · subst hb'; exact absurd hab (lt_irrefl _)
          · exact Or.inl (List.mem_map.mpr ⟨_, hb', rfl⟩)
        · rcases List.mem_cons.mp hb with hb' | hb'
          · subst hb'
            exact absurd (lt_of_lt_of_le hab (hs.1 _ ha')) (lt_irrefl _)
          · exact Or.inr ((ih hs.2 hnd.2).mpr ⟨ha', hb', hab⟩)

lemma pairsAux_nodup {s : List String} (hnd : s.Nodup) : (pairsAux s).Nodup := by
  induction s with
  | nil => exact List.nodup_nil
  | cons x xs ih =>
      rw [List.nodup_cons] at hnd
      rw [pairsAux]
      refine List.Nodup.append ?_ (ih hnd.2) ?_
      · exact hnd.2.map (fun y z h => congrArg Prod.snd h)
      · intro p hp hp'
        rcases List.mem_map.mp hp with ⟨y, _, rfl⟩
        exact hnd.1 (mem_pairsAux hp').1

lemma pairsAux_length (s : List String) :
    2 * (pairsAux s).length = s.length * (s.length - 1) := by
  induction s with
  | nil => rfl
  | cons x xs ih =>
      rw [pairsAux, List.length_append, List.length_map, List.length_cons]
      match h : xs.length with
      | 0 => rw [h] at ih; omega
      | m + 1 =>
          rw [h] at ih
          have ih' : 2 * (pairsAux xs).length = (m + 1) * m := by simpa using ih
          have hexp : (m + 1 + 1) * (m + 1 + 1 - 1) = (m + 1) * m + 2 * (m + 1) := by
            simp only [Nat.add_sub_cancel]
            ring
          rw [hexp]
          omega

/-- C3: for an input with `k` distinct elements, `pairs` returns exactly
the `k*(k-1)/2` unordered pairs of distinct elements, each represented
once as `(a, b)` with `a < b` in sort order; no pair is repeated and no
reversed duplicate `(b, a)` appears. -/
theorem pairs_spec (l : List String) :
    (pairs l).length = l.dedup.length * (l.dedup.length - 1) / 2 ∧
    (pairs l).Nodup ∧
    (∀ p ∈ pairs l, p.1 ∈ l ∧ p.2 ∈ l ∧ p.1 < p.2) ∧
    (∀ a b : String, a ∈ l → b ∈ l → a < b → (a, b) ∈ pairs l) ∧
    (∀ a b : String, (a, b) ∈ pairs l → (b, a) ∉ pairs l) := by
  have hperm : List.Perm (List.insertionSort (· ≤ ·) l.dedup) l.dedup :=
    List.perm_insertionSort _ _
  have hsorted : (List.insertionSort (· ≤ ·) l.dedup).Sorted (· ≤ ·) :=
    List.sorted_insertionSort _ _
  have hnd : (List.insertionSort (· ≤ ·) l.dedup).Nodup :=
    hperm.nodup_iff.mpr (List.nodup_dedup l)
  have hmem : ∀ x : String, x ∈ List.insertionSort (· ≤ ·) l.dedup ↔ x ∈ l :=
    fun x => hperm.mem_iff.trans (List.mem_dedup)
  have hlen : (List.insertionSort (· ≤ ·) l.dedup).length = l.dedup.length :=
    hperm.length_eq
  rw [pairs_eq_pairsAux l]
  refine ⟨?_, pairsAux_nodup hnd, ?_, ?_, ?_⟩
  · have h2 := pairsAux_length (List.insertionSort (· ≤ ·) l.dedup)
    rw [hlen] at h2
    omega
  · intro p hp
    have h := (@mem_pairsAux_iff _ hsorted hnd p.1 p.2).mp hp
    exact ⟨(hmem p.1).mp h.1, (hmem p.2).mp h.2.1, h.2.2⟩
  · intro a b ha hb hab
    exact (mem_pairsAux_iff hsorted hnd).mpr ⟨(hmem a).mpr ha, (hmem b).mpr hb, hab⟩
  · intro a b hab hba
    have h1 := ((mem_pairsAux_iff hsorted hnd).mp hab).2.2
    have h2 := ((mem_pairsAux_iff hsorted hnd).mp hba).2.2
    exact absurd (h1.trans h2) (lt_irrefl a)

/-- Witness for C3 at the list `["B", "A", "C"]`. -/
theorem pairs_spec_witness :
    ("A" : String) ∈ ["B", "A", "C"] ∧ ("B" : String) ∈ ["B", "A", "C"] ∧
    ("A" : String) < "B" ∧ ("A", "B") ∈ pairs ["B", "A", "C"] :=
  ⟨by decide, by decide, by rw [String.lt_iff_toList_lt]; decide,
   (pairs_spec ["B", "A", "C"]).2.2.2.1 "A" "B" (by decide) (by decide)
     (by rw [String.lt_iff_toList_lt]; decide)⟩

/-- The per-pair record with keys `ALL` and `LEMMAS` of
`BTypePairDictionary`. -/
structure PairEntry where
  ALL : List WordForm
  LEMMAS : Dict String (List WordForm)
deriving DecidableEq, Repr

/-- `BTypePairDictionary.add_wordforms`: ensure the pair's entry and the
lemma's slot exist, keep only the word forms whose own basic type is a
member of the pair, and extend both `ALL` and `LEMMAS[lemma]` with
them. -/
def add_wordforms (data : Dict (String × String) PairEntry) (lemma_ : String)
    (btype_pair : String × String) (wfs : List WordForm) :
    Dict (String × String) PairEntry :=
  let data := dsetdefault data btype_pair ⟨[], []⟩
  let entry := (dlookup data btype_pair).getD ⟨[], []⟩
  let lemmas := dsetdefault entry.LEMMAS lemma_ []
  let filterd_wfs := wfs.filter
    (fun wf => decide (wfBtypes wf = btype_pair.1 ∨ wfBtypes wf = btype_pair.2))
  dinsert data btype_pair
    ⟨entry.ALL ++ filterd_wfs,
     dinsert lemmas lemma_ (((dlookup lemmas lemma_).getD []) ++ filterd_wfs)⟩

/-- `BTypePairDictionary.__init__`: for every lemma and file name of the
index, collect the set of the group's basic types, exclude those with a
space in them, sort, generate all ordered pairs, and add the group's word
forms under each pair. -/
def btype_pair_dictionary (lemma_fname_idx : Dict String (Dict String (List WordForm))) :
    Dict (String × String) PairEntry :=
  lemma_fname_idx.foldl
    (fun data p =>
      p.2.foldl
        (fun data q =>
          let wfs := q.2
          let btypes := (wfs.map wfBtypes).dedup
          let btypes := btypes.filter (fun bt => !(bt.data.contains ' '))
          let btype_pairs := pairs btypes
          btype_pairs.foldl (fun data bp => add_wordforms data p.1 bp wfs) data)
        data)
    []

/-- `IndexedWordForms.get_pairs`: the pair keys whose `ALL` list has at
least `min_instances` word forms and whose `LEMMAS` dict has at least
`min_lemmas` lemmas (every key from `keys()` is present, so the `getD`
default is never used). -/
def get_pairs (btypes_idx : Dict (String × String) PairEntry)
    (min_lemmas min_instances : Nat) : List (String × String) :=
  (dkeys btypes_idx).filter
    (fun pair =>
      let entry := (dlookup btypes_idx pair).getD ⟨[], []⟩
      decide (min_instances ≤ entry.ALL.length ∧ min_lemmas ≤ entry.LEMMAS.length))

/-- `WordForm.kwic` (objects.py:148-156).  The method reads only the
`text` fields of its sentence's token list `sent.wfs` and its own
`position`, so it is embedded as a function of the token texts.
`left[-context:]` follows Python slice semantics: `-0` is `0` (the whole
string), and for a positive `context` the start index is clamped at the
beginning of the string. -/
def kwic (texts : List String) (position : Nat) (context : Nat) :
    String × String × String :=
  let kw := texts.getD position ""
  let left := texts.take position
  let right := texts.drop (position + 1)
  let left := String.intercalate " " left
  let right := String.intercalate " " right
  let left := if context = 0 then left
    else String.mk (left.data.drop (left.data.length - context))
  let right := String.mk (right.data.take context)
  (left, kw, right)


section BTypePairLemmas

/-- Membership facts for `pairs` shared by the pair-index invariants: both
components of an emitted pair come from the input and are strictly
ordered. -/
lemma mem_pairs {p : String × String} {l : List String} (hp : p ∈ pairs l) :
    p.1 ∈ l ∧ p.2 ∈ l ∧ p.1 < p.2 := by
  rw [pairs_eq_pairsAux] at hp
  have hperm : List.Perm (List.insertionSort (· ≤ ·) l.dedup) l.dedup :=
    List.perm_insertionSort _ _
  have hsorted := List.sorted_insertionSort (· ≤ ·) l.dedup
  have hnd := hperm.nodup_iff.mpr (List.nodup_dedup l)
  have h := (@mem_pairsAux_iff _ hsorted hnd p.1 p.2).mp hp
  exact ⟨List.mem_dedup.mp (hperm.mem_iff.mp h.1),
    List.mem_dedup.mp (hperm.mem_iff.mp h.2.1), h.2.2⟩

lemma btype_pair_dictionary_eq (lemma_fname_idx : Dict String (Dict String (List WordForm))) :
    btype_pair_dictionary lemma_fname_idx =
      lemma_fname_idx.foldl
        (fun data p =>
          p.2.foldl
            (fun data q =>
              (pairs (((q.2.map wfBtypes).dedup).filter
                  (fun bt => !(bt.data.contains ' ')))).foldl
                (fun data bp => add_wordforms data p.1 bp q.2) data)
            data)
        [] :=
  rfl

lemma add_wordforms_keys {data : Dict (String × String) PairEntry} {lem : String}
    {bp : String × String} {wfs : List WordForm} {k : String × String}
    (hk : k ∈ dkeys (add_wordforms data lem bp wfs)) :
    k = bp ∨ k ∈ dkeys data := by
  simp only [add_wordforms] at hk
  rcases List.mem_map.mp hk with ⟨q, hq, hqe⟩
  rcases List.mem_cons.mp (dinsert_mem_of_mem _ _ _ hq) with h1 | h1
  · left
    rw [← hqe, h1]
  · rcases setdefault_mem_of_mem _ _ _ h1 with h2 | h2
    · right
      rw [← hqe]
      exact List.mem_map.mpr ⟨q, h2, rfl⟩
    · left
      rw [← hqe, h2]

lemma btype_pair_dictionary_keys
    {idx : Dict String (Dict String (List WordForm))} {k : String × String}
    (hk : k ∈ dkeys (btype_pair_dictionary idx)) :
    k.1 < k.2 ∧ k.1.data.contains ' ' = false ∧ k.2.data.contains ' ' = false := by
  rw [btype_pair_dictionary_eq] at hk
  refine foldl_invariant
    (fun data => ∀ k, k ∈ dkeys data →
      k.1 < k.2 ∧ k.1.data.contains ' ' = false ∧ k.2.data.contains ' ' = false)
    _ ?_ idx [] (fun k hk => absurd hk (List.not_mem_nil k)) k hk
  intro data p hdata
  refine foldl_invariant
    (fun data => ∀ k, k ∈ dkeys data →
      k.1 < k.2 ∧ k.1.data.contains ' ' = false ∧ k.2.data.contains ' ' = false)
    _ ?_ p.2 data hdata
  intro data q hdata2
  refine foldl_invariant_mem
    (fun data => ∀ k, k ∈ dkeys data →
      k.1 < k.2 ∧ k.1.data.contains ' ' = false ∧ k.2.data.contains ' ' = false)
    _ _ ?_ data hdata2
  intro data bp hbp hdata3 k hkmem
  rcases add_wordforms_keys hkmem with h1 | h1
  · subst h1
    obtain ⟨hm1, hm2, hlt⟩ := mem_pairs hbp
    refine ⟨hlt, ?_, ?_⟩
    · have := (List.mem_filter.mp hm1).2
      simpa using this
    · have := (List.mem_filter.mp hm2).2
      simpa using this
  · exact hdata3 k h1

end BTypePairLemmas

/-- C4: every key of a constructed basic-type pair index is a pair
`(a, b)` with `a < b` lexicographically; `(b, a)` never appears as a
separate key; and no key component contains a space (space-containing
labels are excluded from pairing entirely). -/
theorem btype_pair_index_keys_spec
    (lemma_fname_idx : Dict String (Dict String (List WordForm))) :
    ∀ key ∈ dkeys (btype_pair_dictionary lemma_fname_idx),
      key.1 < key.2 ∧
      key.1.data.contains ' ' = false ∧ key.2.data.contains ' ' = false ∧
      (key.2, key.1) ∉ dkeys (btype_pair_dictionary lemma_fname_idx) := by
  intro key hkey
  obtain ⟨hlt, h1, h2⟩ := btype_pair_dictionary_keys hkey
  refine ⟨hlt, h1, h2, ?_⟩
  intro hc
  obtain ⟨hlt2, _, _⟩ := btype_pair_dictionary_keys hc
  exact absurd (hlt.trans hlt2) (lt_irrefl key.1)

/-- Input for the pair-index witnesses: one lemma in one document with two
single-type senses and one space-containing (multi-type) sense. -/
def pairDictSample : Dict String (Dict String (List WordForm)) :=
  [("walk",
    [("d1",
      [⟨1, "walk", "d1", some ⟨"s1", "noun", "act", "d", "g"⟩⟩,
       ⟨2, "walk", "d1", some ⟨"s2", "noun", "event", "d", "g"⟩⟩,
       ⟨3, "walk", "d1", some ⟨"s3", "noun", "act event", "d", "g"⟩⟩])])]

/-- Witness for C4 at the concrete `pairDictSample`: its only key is
`("act", "event")` and the space-containing label `"act event"` appears in
no key. -/
theorem btype_pair_index_keys_spec_witness :
    (("act", "event") ∈ dkeys (btype_pair_dictionary pairDictSample)) ∧
    ("act" < "event" ∧
      ("act" : String).data.contains ' ' = false ∧
      ("event" : String).data.contains ' ' = false ∧
      ("event", "act") ∉ dkeys (btype_pair_dictionary pairDictSample)) :=
  ⟨by decide,
   btype_pair_index_keys_spec pairDictSample ("act", "event") (by decide)⟩

section BTypePairEntryLemmas

lemma join_values_dsetdefault_nil {α β : Type} [DecidableEq α]
    (d : Dict α (List β)) (k : α) :
    (((dsetdefault d k []).map Prod.snd).flatten) = ((d.map Prod.snd).flatten) := by
  induction d with
  | nil => rfl
  | cons p rest ih =>
      obtain ⟨k', v'⟩ := p
      by_cases h : k' = k
      · rw [dsetdefault, if_pos h]
      · rw [dsetdefault, if_neg h, List.map_cons, List.map_cons, List.flatten_cons,
          List.flatten_cons, ih]

lemma join_values_dinsert_extend {α β : Type} [DecidableEq α]
    (d : Dict α (List β)) (k : α) {v : List β} (hv : dlookup d k = some v)
    (w : List β) :
    List.Perm (((dinsert d k (v ++ w)).map Prod.snd).flatten)
      (((d.map Prod.snd).flatten) ++ w) := by
  induction d with
  | nil => exact Option.noConfusion hv
  | cons p rest ih =>
      obtain ⟨k', v'⟩ := p
      rw [dlookup] at hv
      by_cases h : k' = k
      · rw [if_pos h] at hv
        have hveq : v' = v := Option.some.inj hv
        subst hveq
        rw [dinsert, if_pos h, List.map_cons, List.map_cons, List.flatten_cons,
          List.flatten_cons, List.append_assoc, List.append_assoc]
        exact List.Perm.append_left v' List.perm_append_comm
      · rw [if_neg h] at hv
        rw [dinsert, if_neg h, List.map_cons, List.map_cons, List.flatten_cons,
          List.flatten_cons]
        refine List.Perm.trans (List.Perm.append_left v' (ih hv)) ?_
        rw [List.append_assoc]

lemma add_wordforms_lookup_ne (data : Dict (String × String) PairEntry)
    (lem : String) (bp : String × String) (wfs : List WordForm)
    {pair : String × String} (h : bp ≠ pair) :
    dlookup (add_wordforms data lem bp wfs) pair = dlookup data pair := by
  simp only [add_wordforms]
  rw [dlookup_dinsert_ne _ _ h, dlookup_dsetdefault_ne _ _ h]

lemma add_wordforms_lookup_self (data : Dict (String × String) PairEntry)
    (lem : String) (bp : String × String) (wfs : List WordForm) :
    dlookup (add_wordforms data lem bp wfs) bp =
      some ⟨((dlookup data bp).getD ⟨[], []⟩).ALL ++
              wfs.filter
                (fun wf => decide (wfBtypes wf = bp.1 ∨ wfBtypes wf = bp.2)),
            dinsert (dsetdefault ((dlookup data bp).getD ⟨[], []⟩).LEMMAS lem [])
              lem
              (((dlookup ((dlookup data bp).getD ⟨[], []⟩).LEMMAS lem).getD []) ++
                wfs.filter
                  (fun wf => decide (wfBtypes wf = bp.1 ∨ wfBtypes wf = bp.2)))⟩ := by
  simp only [add_wordforms]
  rw [dlookup_dinsert_self, dlookup_dsetdefault_self, dlookup_dsetdefault_self]
  rfl

/-- The invariant of C5 for one entry of the pair index. -/
def entry_inv (pair : String × String) (e : PairEntry) : Prop :=
  (∀ wf ∈ e.ALL, ∃ s, wf.synset = some s ∧
    (s.btypes = pair.1 ∨ s.btypes = pair.2)) ∧
  List.Perm e.ALL ((e.LEMMAS.map Prod.snd).flatten)

lemma add_wordforms_inv {data : Dict (String × String) PairEntry} {lem : String}
    {bp : String × String} {wfs : List WordForm}
    (hwfs : ∀ wf ∈ wfs, wf.synset.isSome)
    (hP : ∀ pair e, dlookup data pair = some e → entry_inv pair e) :
    ∀ pair e, dlookup (add_wordforms data lem bp wfs) pair = some e →
      entry_inv pair e := by
  intro pair e he
  by_cases hbp : bp = pair
  · subst hbp
    rw [add_wordforms_lookup_self] at he
    have heq := (Option.some.inj he).symm
    subst heq
    set E := (dlookup data bp).getD ⟨[], []⟩ with hE
    have hEinv : entry_inv bp E := by
      cases hl : dlookup data bp with
      | none =>
          rw [hE, hl]
          exact ⟨fun wf hwf => absurd hwf (List.not_mem_nil wf), List.Perm.refl _⟩
      | some e0 =>
          rw [hE, hl]
          exact hP bp e0 hl
    constructor
    · intro wf hwf
      rcases List.mem_append.mp hwf with h1 | h1
      · exact hEinv.1 wf h1
      · obtain ⟨hmem, hcond⟩ := List.mem_filter.mp h1
        have hcond2 := of_decide_eq_true hcond
        cases hs : wf.synset with
        | none =>
            exact absurd (hwfs wf hmem) (by rw [hs]; exact Bool.noConfusion)
        | some s =>
            refine ⟨s, rfl, ?_⟩
            have hbt : wfBtypes wf = s.btypes := by
              rw [wfBtypes, hs]
            rw [← hbt]
            exact hcond2
    · have hjoin := join_values_dinsert_extend
        (dsetdefault E.LEMMAS lem []) lem
        (dlookup_dsetdefault_self E.LEMMAS lem []) 
        (wfs.filter (fun wf => decide (wfBtypes wf = bp.1 ∨ wfBtypes wf = bp.2)))
      refine List.Perm.trans
        (List.Perm.append hEinv.2 (List.Perm.refl _)) ?_
      refine List.Perm.trans ?_ hjoin.symm
      rw [join_values_dsetdefault_nil]
  · rw [add_wordforms_lookup_ne data lem bp wfs hbp] at he
    exact hP pair e he

end BTypePairEntryLemmas

/-- C5: in a constructed basic-type pair index, for every pair key
`(a, b)` every word form in that key's `ALL` list carries a synset whose
basic-type label is `a` or `b`, and `ALL` equals, as a multiset, the
concatenation of all the lists in that key's `LEMMAS` mapping.  The
hypothesis that every word form of the input index has a synset reflects
the pipeline: the pair index is built from the filtered index, whose word
forms all carry synsets (C10). -/
theorem btype_pair_entries_spec
    (lemma_fname_idx : Dict String (Dict String (List WordForm)))
    (hsyn : ∀ p ∈ lemma_fname_idx, ∀ q ∈ p.2, ∀ wf ∈ q.2, wf.synset.isSome) :
    ∀ pair e, dlookup (btype_pair_dictionary lemma_fname_idx) pair = some e →
      (∀ wf ∈ e.ALL, ∃ s, wf.synset = some s ∧
        (s.btypes = pair.1 ∨ s.btypes = pair.2)) ∧
      List.Perm e.ALL ((e.LEMMAS.map Prod.snd).flatten) := by
  rw [btype_pair_dictionary_eq]
  refine foldl_invariant_mem
    (fun data => ∀ pair e, dlookup data pair = some e → entry_inv pair e)
    _ lemma_fname_idx ?_ []
    (fun pair e he => absurd he (by rw [dlookup]; exact fun h => Option.noConfusion h))
  · intro data p hp hdata
    refine foldl_invariant_mem
      (fun data => ∀ pair e, dlookup data pair = some e → entry_inv pair e)
      _ p.2 ?_ data hdata
    intro data q hq hdata2
    refine foldl_invariant
      (fun data => ∀ pair e, dlookup data pair = some e → entry_inv pair e)
      _ ?_ _ data hdata2
    intro data bp hdata3
    exact add_wordforms_inv (hsyn p hp q hq) hdata3

/-- Witness for C5 at the concrete `pairDictSample`: its only entry, under
key `("act", "event")`, has both invariants. -/
theorem btype_pair_entries_spec_witness :
    (∀ p ∈ pairDictSample, ∀ q ∈ p.2, ∀ wf ∈ q.2, wf.synset.isSome) ∧
    ((∀ wf ∈ ([⟨1, "walk", "d1", some ⟨"s1", "noun", "act", "d", "g"⟩⟩,
               ⟨2, "walk", "d1", some ⟨"s2", "noun", "event", "d", "g"⟩⟩] :
          List WordForm), ∃ s, wf.synset = some s ∧
        (s.btypes = ("act", "event").1 ∨ s.btypes = ("act", "event").2)) ∧
      List.Perm
        ([⟨1, "walk", "d1", some ⟨"s1", "noun", "act", "d", "g"⟩⟩,
          ⟨2, "walk", "d1", some ⟨"s2", "noun", "event", "d", "g"⟩⟩] :
            List WordForm)
        ((([("walk",
            [⟨1, "walk", "d1", some ⟨"s1", "noun", "act", "d", "g"⟩⟩,
             ⟨2, "walk", "d1", some ⟨"s2", "noun", "event", "d", "g"⟩⟩])] :
              Dict String (List WordForm)).map Prod.snd).flatten)) :=
  ⟨by decide,
   btype_pair_entries_spec pairDictSample (by decide) ("act", "event")
     ⟨[⟨1, "walk", "d1", some ⟨"s1", "noun", "act", "d", "g"⟩⟩,
       ⟨2, "walk", "d1", some ⟨"s2", "noun", "event", "d", "g"⟩⟩],
      [("walk",
        [⟨1, "walk", "d1", some ⟨"s1", "noun", "act", "d", "g"⟩⟩,
         ⟨2, "walk", "d1", some ⟨"s2", "noun", "event", "d", "g"⟩⟩])]⟩
     (by decide)⟩

/-- C9: `get_pairs` returns exactly the pair keys whose `LEMMAS` mapping
has at least `min_lemmas` (distinct) lemma keys and whose `ALL` list has
at least `min_instances` word forms; under the dict invariant the
`LEMMAS` entry count is the number of distinct lemma keys. -/
theorem get_pairs_spec (btypes_idx : Dict (String × String) PairEntry)
    (hLnd : ∀ p ∈ btypes_idx, (dkeys p.2.LEMMAS).Nodup)
    (min_lemmas min_instances : Nat) :
    (∀ pair, pair ∈ get_pairs btypes_idx min_lemmas min_instances ↔
      ∃ e, dlookup btypes_idx pair = some e ∧
        min_lemmas ≤ e.LEMMAS.length ∧ min_instances ≤ e.ALL.length) ∧
    (∀ pair e, dlookup btypes_idx pair = some e →
      ((dkeys e.LEMMAS).dedup).length = e.LEMMAS.length) := by
  constructor
  · intro pair
    constructor
    · intro hp
      obtain ⟨hmem, hpred⟩ := List.mem_filter.mp hp
      rcases Option.ne_none_iff_exists'.mp
        ((mem_dkeys_iff_dlookup _ pair).mp hmem) with ⟨e, he⟩
      have hp2 := of_decide_eq_true hpred
      rw [he] at hp2
      exact ⟨e, he, hp2.2, hp2.1⟩
    · rintro ⟨e, he, hL, hI⟩
      have hpred : min_instances ≤
            ((dlookup btypes_idx pair).getD ⟨[], []⟩).ALL.length ∧
          min_lemmas ≤ ((dlookup btypes_idx pair).getD ⟨[], []⟩).LEMMAS.length := by
        rw [he]
        exact ⟨hI, hL⟩
      exact List.mem_filter.mpr
        ⟨(mem_dkeys_iff_dlookup _ pair).mpr
          (by rw [he]; exact fun h => Option.noConfusion h),
         decide_eq_true hpred⟩
  · intro pair e he
    have hnd2 := hLnd (pair, e) (dlookup_mem he)
    rw [List.Nodup.dedup hnd2, dkeys, List.length_map]

/-- A sample basic-type pair index with one pair above the thresholds
`(2, 4)` and one below. -/
def pairsSample : Dict (String × String) PairEntry :=
  [(("act", "event"),
    ⟨[⟨1, "walk", "d1", some ⟨"s1", "noun", "act", "d", "g"⟩⟩,
      ⟨2, "walk", "d1", some ⟨"s2", "noun", "event", "d", "g"⟩⟩,
      ⟨3, "run", "d2", some ⟨"s1", "noun", "act", "d", "g"⟩⟩,
      ⟨4, "run", "d2", some ⟨"s2", "noun", "event", "d", "g"⟩⟩],
     [("walk", [⟨1, "walk", "d1", some ⟨"s1", "noun", "act", "d", "g"⟩⟩,
                ⟨2, "walk", "d1", some ⟨"s2", "noun", "event", "d", "g"⟩⟩]),
      ("run", [⟨3, "run", "d2", some ⟨"s1", "noun", "act", "d", "g"⟩⟩,
               ⟨4, "run", "d2", some ⟨"s2", "noun", "event", "d", "g"⟩⟩])]⟩),
   (("act", "loc"),
    ⟨[⟨5, "bank", "d1", some ⟨"s3", "noun", "loc", "d", "g"⟩⟩],
     [("bank", [⟨5, "bank", "d1", some ⟨"s3", "noun", "loc", "d", "g"⟩⟩])]⟩)]

/-- Witness for C9 at the concrete `pairsSample` with thresholds 2 and 4. -/
theorem get_pairs_spec_witness :
    (∀ p ∈ pairsSample, (dkeys p.2.LEMMAS).Nodup) ∧
    (("act", "event") ∈ get_pairs pairsSample 2 4 ↔
      ∃ e, dlookup pairsSample ("act", "event") = some e ∧
        2 ≤ e.LEMMAS.length ∧ 4 ≤ e.ALL.length) :=
  ⟨by decide,
   ((get_pairs_spec pairsSample (by decide) 2 4).1 ("act", "event"))⟩

/-- The last `n` characters of a string (all of it when `n` exceeds the
length), as the spec describes the left KWIC truncation. -/
def lastChars (n : Nat) (s : String) : String :=
  String.mk (s.data.drop (s.data.length - n))

/-- The first `n` characters of a string (all of it when `n` exceeds the
length), as the spec describes the right KWIC truncation. -/
def firstChars (n : Nat) (s : String) : String :=
  String.mk (s.data.take n)

/-- C8: for a word form whose position is a valid index into its
sentence's token list and a positive character window, `kwic` returns the
last `window` characters of the space-joined texts before the word, the
word's own text, and the first `window` characters of the space-joined
texts after it. -/
theorem kwic_spec (texts : List String) (position : Nat) (window : Nat)
    (hpos : position < texts.length) (hw : 0 < window) :
    kwic texts position window =
      (lastChars window (String.intercalate " " (texts.take position)),
       texts.get ⟨position, hpos⟩,
       firstChars window (String.intercalate " " (texts.drop (position + 1)))) := by
  simp only [kwic, lastChars, firstChars]
  rw [if_neg (Nat.pos_iff_ne_zero.mp hw), List.getD_eq_getElem _ _ hpos]
  rfl

/-- Witness for C8 at the spec's concrete example: tokens
`["The", "bank", "by", "the", "river"]`, position 1, window 3 give
`("The", "bank", "by ")`. -/
theorem kwic_spec_witness :
    ((1 < (["The", "bank", "by", "the", "river"] : List String).length) ∧ 0 < 3) ∧
    kwic ["The", "bank", "by", "the", "river"] 1 3 = ("The", "bank", "by ") :=
  ⟨⟨by decide, by decide⟩,
   (kwic_spec ["The", "bank", "by", "the", "river"] 1 3 (by decide) (by decide)).trans
     (by decide)⟩

end Semcor
